import Mathlib

/-!
Verification of the av-organizer pipeline (src/index.js) against its
natural-language specification.  The JavaScript program is shallowly
embedded: pure computations become Lean functions, the filesystem and the
external collaborators (stat, MIME lookup, EXIF reader) are passed in as
explicit data, and the move stage is modelled as a trace of filesystem
events.  Machine-level details that matter are kept: JavaScript's default
`Array.prototype.sort` compares elements by their string rendering, `shift`
and `pop` on an empty array return `undefined` (modelled as `Option`), and a
property access on `undefined` throws a `TypeError`.
-/

set_option autoImplicit false

namespace AvOrganizer

/-! ### Timestamps

A JavaScript `Date` is modelled by its UTC calendar/clock fields.  The
program only ever renders dates (`toString` via the default sort,
`toISOString` for the directory name); both renderings are reproduced
below, with the weekday derived from the date by Zeller's congruence, as a
real `Date` would. -/

structure JSDate where
  year : Nat
  month : Nat
  day : Nat
  hour : Nat
  minute : Nat
  second : Nat
deriving DecidableEq, Repr, Inhabited

/-- Zeller's congruence on the Gregorian calendar; result 0 is Saturday,
1 Sunday, 2 Monday, and so on. -/
def weekdayIndex (y m d : Nat) : Nat :=
  let m2 := if m ≤ 2 then m + 12 else m
  let y2 := if m ≤ 2 then y - 1 else y
  let K := y2 % 100
  let J := y2 / 100
  (d + (13 * (m2 + 1)) / 5 + K + K / 4 + J / 4 + 5 * J) % 7

def weekdayName (d : JSDate) : String :=
  ["Sat", "Sun", "Mon", "Tue", "Wed", "Thu", "Fri"].getD
    (weekdayIndex d.year d.month d.day) ""

def monthName (d : JSDate) : String :=
  ["Jan", "Feb", "Mar", "Apr", "May", "Jun",
   "Jul", "Aug", "Sep", "Oct", "Nov", "Dec"].getD (d.month - 1) ""

def pad2 (n : Nat) : String :=
  if n < 10 then "0" ++ toString n else toString n

/-- The rendering used by `Date.prototype.toString` for a UTC timestamp,
e.g. "Mon May 01 2023 00:00:00 GMT+0000 (Coordinated Universal Time)".
This is the key JavaScript's default array sort compares by. -/
def jsDateToString (d : JSDate) : String :=
  weekdayName d ++ " " ++ monthName d ++ " " ++ pad2 d.day ++ " " ++
  toString d.year ++ " " ++ pad2 d.hour ++ ":" ++ pad2 d.minute ++ ":" ++
  pad2 d.second ++ " GMT+0000 (Coordinated Universal Time)"

/-- The date part of `Date.prototype.toISOString`: what
`groupDate.toISOString().split('T').shift()` produces. -/
def isoDateString (d : JSDate) : String :=
  toString d.year ++ "-" ++ pad2 d.month ++ "-" ++ pad2 d.day

/-- Chronological comparison of timestamps (the order the spec means by
"earliest"), via a monotone numeric encoding. -/
def dateKey (d : JSDate) : Nat :=
  ((((d.year * 13 + d.month) * 32 + d.day) * 24 + d.hour) * 60 + d.minute)
    * 60 + d.second

/-! ### JavaScript's default array sort

`Array.prototype.sort()` with no comparator orders elements by comparing
their string renderings, and is stable; a stable insertion sort by that key
produces the same array. -/

/-- Lexicographic comparison of strings by character code units, as
JavaScript's `<` on strings (and hence its default sort) compares. -/
def charListLt : List Char → List Char → Bool
  | [], [] => false
  | [], _ :: _ => true
  | _ :: _, [] => false
  | a :: as, b :: bs =>
    if a.toNat < b.toNat then true
    else if b.toNat < a.toNat then false
    else charListLt as bs

def jsStrLt (a b : String) : Bool :=
  charListLt a.toList b.toList

def jsStringLt (a b : JSDate) : Bool :=
  jsStrLt (jsDateToString a) (jsDateToString b)

def insertByToString (x : JSDate) : List JSDate → List JSDate
  | [] => [x]
  | e :: rest =>
    if jsStringLt x e then x :: e :: rest else e :: insertByToString x rest

def jsSortDates (l : List JSDate) : List JSDate :=
  l.foldl (fun acc x => insertByToString x acc) []

/-! ### Splitting names

`String.prototype.split` with a single-character separator, keeping empty
segments; it never returns an empty array. -/

def splitChar (sep : Char) : List Char → List (List Char)
  | [] => [[]]
  | c :: cs =>
    if c = sep then [] :: splitChar sep cs
    else
      match splitChar sep cs with
      | seg :: rest => (c :: seg) :: rest
      | [] => [[c]]

theorem splitChar_ne_nil (sep : Char) (l : List Char) : splitChar sep l ≠ [] := by
  cases l with
  | nil => simp [splitChar]
  | cons c cs =>
    simp only [splitChar]
    split
    · simp
    · split <;> simp_all

def strOf (l : List Char) : String := String.mk l

/-- The `name` field of a descriptor: `path.basename(filePath).split('.')`
followed by `shift()` — the segment before the first dot (`split` never
yields an empty array, so `shift` is always defined). -/
def groupKeyOf (base : String) : String :=
  strOf (splitChar '.' base.toList).headI

/-- The `extension` field: after `shift()` has removed the first segment,
`pop()` takes the last remaining segment, and returns `undefined` (here
`none`) when nothing remains. -/
def extensionOf (base : String) : Option String :=
  (((splitChar '.' base.toList).drop 1).getLast?).map strOf

/-- The coarse type: `mimeType?.split('/').shift()`. -/
def coarseOf (mt : Option String) : Option String :=
  match mt with
  | none => none
  | some m => ((splitChar '/' m.toList).head?).map strOf

/-! ### The descriptor and its extraction -/

structure FileInfo where
  name : String
  basename : String
  extension : Option String
  path : String
  mime : Option String
  type : Option String
  takenAt : Option JSDate
  createdAt : JSDate
  modifiedAt : JSDate
deriving DecidableEq, Repr

/-- Errors a JavaScript run can raise; a property access on `undefined`
throws a `TypeError`. -/
inductive JSError where
  | typeError
deriving DecidableEq, Repr

/-- What `exifr.parse` resolves to: `undefined` (no metadata found,
modelled `none`) or a metadata object that may lack `DateTimeOriginal`. -/
structure ExifData where
  DateTimeOriginal : Option JSDate
deriving DecidableEq, Repr

/-- The external collaborators' answers for one file: the MIME lookup, the
`stat` result, and what the metadata reader would resolve to if consulted. -/
structure FileWorld where
  mimeType : Option String
  ctime : JSDate
  mtime : JSDate
  exifResult : Option ExifData
deriving DecidableEq, Repr

def metadataMimes : List String := ["image/jpeg", "image/tiff"]

/-- The guard `['image/jpeg', 'image/tiff'].includes(mimeType)`. -/
def attemptsMetadata (mt : Option String) : Bool :=
  match mt with
  | some m => metadataMimes.contains m
  | none => false

/-- Shallow embedding of `getFileInfo`.  The second component records
whether `fs.promises.readFile` was invoked (file content read).  When the
MIME type is image/jpeg or image/tiff the file is read and `exifr.parse`
consulted; if that resolves to `undefined`, the access
`exifData.DateTimeOriginal` throws a `TypeError`. -/
def getFileInfo (filePath base : String) (w : FileWorld) :
    Except JSError FileInfo × Bool :=
  let fi (taken : Option JSDate) : FileInfo :=
    { name := groupKeyOf base
      basename := base
      extension := extensionOf base
      path := filePath
      mime := w.mimeType
      type := coarseOf w.mimeType
      takenAt := taken
      createdAt := w.ctime
      modifiedAt := w.mtime }
  if attemptsMetadata w.mimeType then
    match w.exifResult with
    | none => (Except.error JSError.typeError, true)
    | some e => (Except.ok (fi e.DateTimeOriginal), true)
  else
    (Except.ok (fi none), false)

/-- The eligibility filter `isValidFile`, on the entry's base name and
whether `stat` says it is a directory. -/
def isValidFile (base : String) (isDir : Bool) : Bool :=
  !(base.take 2 = "._" || base = ".DS_Store" || isDir)

/-! ### Grouping

`files` is a plain object filled key by key; `for..in` visits its
non-numeric string keys in first-insertion order, which for the file lists
handled here is the order in which each group key first occurs. -/

def insertKey (ks : List String) (k : String) : List String :=
  if ks.contains k then ks else ks ++ [k]

def groupKeys (fis : List FileInfo) : List String :=
  (fis.map (fun fi => fi.name)).foldl insertKey []

/-- The member list collected for one group key, in discovery order. -/
def grpOf (fis : List FileInfo) (k : String) : List FileInfo :=
  fis.filter (fun fi => fi.name = k)

/-! ### The group reducer -/

/-- The membership test in the `groupType` filter; `includes` on an
`undefined` coarse type is false. -/
def isMediaType (t : Option String) : Bool :=
  match t with
  | some s => ["image", "audio", "video"].contains s
  | none => false

/-- JavaScript's `x || 'other'` applied to the result of `shift()`:
`undefined` (empty list) and the empty string are falsy. -/
def jsTruthyOr (x : Option (Option String)) (dflt : String) : String :=
  match x with
  | some (some s) => if s = "" then dflt else s
  | some none => dflt
  | none => dflt

/-- The `groupType` computation: filter members to media coarse types, map
to the type, `shift()`, default to "other". -/
def groupTypeOf (fis : List FileInfo) : String :=
  jsTruthyOr
    (((fis.filter (fun fi => isMediaType fi.type)).map (fun fi => fi.type)).head?)
    "other"

/-- The per-member effective timestamp `fileInfo.takenAt || fileInfo.modifiedAt`
(a `Date` is always truthy, so `||` coincides with null-coalescing here). -/
def effectiveDates (fis : List FileInfo) : List JSDate :=
  fis.map (fun fi => fi.takenAt.getD fi.modifiedAt)

/-- The `groupDate` computation: default-sort the effective timestamps and
`shift()`; `none` only on an empty group, where the JavaScript code would
instead throw on `groupDate.toISOString()`. -/
def groupDate? (fis : List FileInfo) : Option JSDate :=
  (jsSortDates (effectiveDates fis)).head?

/-- The `dateString`: `groupDate.toISOString().split('T').shift()`. -/
def groupDateString? (fis : List FileInfo) : Option String :=
  (groupDate? fis).map isoDateString

/-- The chronologically earliest timestamp of a list — what the spec means
by "the minimum (earliest) effectiveDate". -/
def chronEarliest? (l : List JSDate) : Option JSDate :=
  l.foldl
    (fun acc d =>
      match acc with
      | none => some d
      | some a => if dateKey d < dateKey a then some d else some a)
    none

/-- The calendar date of the chronologically earliest effective timestamp
of a group, per the spec's words. -/
def chronEarliestDateString? (fis : List FileInfo) : Option String :=
  (chronEarliest? (effectiveDates fis)).map isoDateString

/-! ### The listing `filesPerTypeAndDate`

A two-level object keyed by group type then date string; represented as
nested association lists in key-insertion order.  `push(...fileInfos)`
appends a whole group's members to the bucket. -/

abbrev TDMap := List (String × List (String × List FileInfo))

def pushDate (dates : List (String × List FileInfo)) (d : String)
    (grp : List FileInfo) : List (String × List FileInfo) :=
  match dates with
  | [] => [(d, grp)]
  | (d2, fs) :: rest =>
    if d2 = d then (d2, fs ++ grp) :: rest else (d2, fs) :: pushDate rest d grp

def pushTD (m : TDMap) (t d : String) (grp : List FileInfo) : TDMap :=
  match m with
  | [] => [(t, [(d, grp)])]
  | (t2, dates) :: rest =>
    if t2 = t then (t2, pushDate dates d grp) :: rest
    else (t2, dates) :: pushTD rest t d grp

/-- The group-processing loop: for each group key, compute `groupType` and
`dateString` and push all members under them.  A group is never empty (its
key came from one of its members), so the `none` branch is unreachable; the
JavaScript code would throw there. -/
def buildTD (fis : List FileInfo) : TDMap :=
  (groupKeys fis).foldl
    (fun m k =>
      let grp := grpOf fis k
      match groupDateString? grp with
      | some ds => pushTD m (groupTypeOf grp) ds grp
      | none => m)
    []

/-! ### The destination layout -/

/-- `path.join` for the already-normalized, non-empty components used by
this program is concatenation with a separator. -/
def pathJoin (a b : String) : String := a ++ "/" ++ b

/-- The `typeDirNames` lookup table; indexing a missing key yields
`undefined`. -/
def typeDirNames (t : String) : Option String :=
  if t = "image" then some "Image"
  else if t = "video" then some "Video"
  else if t = "audio" then some "Audio"
  else if t = "other" then some "Other"
  else none

/-- `typeDirNames[type] || 'Other'`. -/
def typeDirName (t : String) : String := (typeDirNames t).getD "Other"

/-- The date-level destination directory for a (type, date) bucket. -/
def dateDir (cwd t d : String) : String :=
  pathJoin (pathJoin cwd (typeDirName t)) d

/-- Every (descriptor, full destination path) pair recorded in the listing:
the mover renames `fileInfo.path` to `path.join(dirDate, fileInfo.basename)`. -/
def entriesOfDates (cwd t : String) (dates : List (String × List FileInfo)) :
    List (FileInfo × String) :=
  dates.flatMap
    (fun dd => dd.2.map (fun fi => (fi, pathJoin (dateDir cwd t dd.1) fi.basename)))

def planEntries (cwd : String) (m : TDMap) : List (FileInfo × String) :=
  m.flatMap (fun td => entriesOfDates cwd td.1 td.2)

/-! ### The move stage as an event trace -/

inductive FsEvent where
  | mkdirType (p : String)
  | mkdirDate (p : String)
  | renameEvt (src dst dir : String)
deriving DecidableEq, Repr

/-- The events of the per-type inner loop: for each date bucket, create the
date directory, then rename each of its files into it.  The date closures
of one type run under `Promise.all`; the trace below is their sequential
scheduling, which is the actual schedule whenever each type has a single
date bucket (as in the counterexamples), and orderings proved below for
this schedule that only relate events of one closure hold in every
schedule. -/
def dateTrace (cwd t : String) : List (String × List FileInfo) → List FsEvent
  | [] => []
  | (d, fs) :: rest =>
    FsEvent.mkdirDate (dateDir cwd t d) ::
      (fs.map (fun fi =>
        FsEvent.renameEvt fi.path (pathJoin (dateDir cwd t d) fi.basename)
          (dateDir cwd t d)) ++ dateTrace cwd t rest)

def bodyTrace (cwd : String) : TDMap → List FsEvent
  | [] => []
  | (t, dates) :: rest => dateTrace cwd t dates ++ bodyTrace cwd rest

/-- The whole move stage: first the type-level directories (created in a
single `Promise.all`, all awaited before the loop starts), then the
per-type loop. -/
def moveTrace (cwd : String) (m : TDMap) : List FsEvent :=
  m.map (fun td => FsEvent.mkdirType (pathJoin cwd (typeDirName td.1)))
    ++ bodyTrace cwd m

/-! ### The rename loop of one date bucket (for the failure behaviour)

`for (const fileInfo of dirFiles) { await fs.promises.rename(...); ... }`:
a rejected rename throws out of the loop, so later files of the bucket are
never attempted.  `renameOk` is the filesystem's verdict per source path;
the first component lists the renames actually attempted, in order, the
second the failing source if any. -/
def moveLoop (renameOk : String → Bool) :
    List FileInfo → List String × Option String
  | [] => ([], none)
  | fi :: rest =>
    if renameOk fi.path then
      let r := moveLoop renameOk rest
      (fi.path :: r.1, r.2)
    else ([fi.path], some fi.path)

/-! ### The preview table and the top-level run -/

structure TableRow where
  File : String
  Class : String
  Date : String
deriving DecidableEq, Repr

/-- The `filesForInformation` rows, one per member, built group by group. -/
def tableOf (fis : List FileInfo) : List TableRow :=
  (groupKeys fis).flatMap
    (fun k =>
      let grp := grpOf fis k
      match groupDateString? grp with
      | some ds => grp.map (fun fi => ⟨fi.basename, groupTypeOf grp, ds⟩)
      | none => [])

structure RunOutput where
  table : List TableRow
  events : List FsEvent
  exitCode : Nat
deriving DecidableEq, Repr

/-- The `main` pipeline over the already-extracted descriptors: print the
table, and only when the subcommand is exactly "move" run the mover;
`main` returns 0 and the process exits with `code || 0`. -/
def mainRun (cwd : String) (command : Option String) (fis : List FileInfo) :
    RunOutput :=
  { table := tableOf fis
    events := if command = some "move" then moveTrace cwd (buildTD fis) else []
    exitCode := 0 }

/-- Source paths renamed away by a trace. -/
def movedSources (evs : List FsEvent) : List String :=
  evs.filterMap
    (fun e =>
      match e with
      | FsEvent.renameEvt src _ _ => some src
      | _ => none)

/-- The working-directory listing after a trace: files renamed away are
gone; created directories are filtered out by the scan and add nothing. -/
def listingAfter (fis : List FileInfo) (evs : List FsEvent) : List FileInfo :=
  fis.filter (fun fi => !(movedSources evs).contains fi.path)

/-! ### The extraction stage under unordered concurrency

`Promise.all` stores each task's result at the task's own index, however
completions interleave, and resolves to the array read out in index order.
A completion schedule is the order in which tasks finish; the stage's
output is independent of it. -/

def fillResults (f : Nat → FileInfo) (s : List Nat) (n : Nat) :
    List (Option FileInfo) :=
  s.foldl (fun acc i => acc.set i (some (f i))) (List.replicate n none)

def collectAll : List (Option FileInfo) → Option (List FileInfo)
  | [] => some []
  | none :: _ => none
  | some x :: rest =>
    match collectAll rest with
    | some xs => some (x :: xs)
    | none => none

/-- The extraction stage: one task per listed file, results gathered by
`Promise.all` after all completions in schedule `s`. -/
def promiseAllExtract (files : List String) (extract : String → FileInfo)
    (s : List Nat) : Option (List FileInfo) :=
  collectAll (fillResults (fun i => extract (files.getD i "")) s files.length)

/-- Everything downstream of extraction, as one tuple: descriptors, group
keys, groups' buckets, the preview table, and the plan. -/
def pipelineFromSchedule (cwd : String) (files : List String)
    (extract : String → FileInfo) (s : List Nat) :
    Option (List FileInfo × List String × TDMap × List TableRow ×
      List (FileInfo × String)) :=
  (promiseAllExtract files extract s).map
    (fun ds => (ds, groupKeys ds, buildTD ds, tableOf ds,
      planEntries cwd (buildTD ds)))

/-! ### Trace orderings -/

def isRenameEvt : FsEvent → Bool
  | FsEvent.renameEvt _ _ _ => true
  | _ => false

def isMkdirEvt : FsEvent → Bool
  | FsEvent.mkdirType _ => true
  | FsEvent.mkdirDate _ => true
  | FsEvent.renameEvt _ _ _ => false

def isMkdirTypeEvt : FsEvent → Bool
  | FsEvent.mkdirType _ => true
  | _ => false

/-- Checks the ordering claim C8 states: every directory creation, of both
levels, happens before the first rename — i.e. from the first rename on, no
mkdir event occurs. -/
def mkdirsAllFirst : List FsEvent → Bool
  | [] => true
  | e :: rest =>
    if isRenameEvt e then rest.all (fun x => !isMkdirEvt x)
    else mkdirsAllFirst rest

/-- Checks that each rename only targets a directory created by an earlier
mkdir event; `made` accumulates the directories created so far. -/
def renamesAfterMkdir (made : List String) : List FsEvent → Bool
  | [] => true
  | FsEvent.mkdirType p :: rest => renamesAfterMkdir (p :: made) rest
  | FsEvent.mkdirDate p :: rest => renamesAfterMkdir (p :: made) rest
  | FsEvent.renameEvt _ _ dir :: rest =>
    made.contains dir && renamesAfterMkdir made rest

def noMkdirType (evs : List FsEvent) : Bool :=
  evs.all (fun e => !isMkdirTypeEvt e)

/-- Checks that every type-level directory creation happens before the
first rename. -/
def typeDirsBeforeRenames : List FsEvent → Bool
  | [] => true
  | e :: rest =>
    if isRenameEvt e then noMkdirType rest else typeDirsBeforeRenames rest

/-! ### Concrete fixtures -/

def may1 : JSDate := ⟨2023, 5, 1, 0, 0, 0⟩
def may3 : JSDate := ⟨2023, 5, 3, 0, 0, 0⟩
def apr20 : JSDate := ⟨2023, 4, 20, 0, 0, 0⟩
def jan1 : JSDate := ⟨2023, 1, 1, 0, 0, 0⟩
def jan2 : JSDate := ⟨2023, 1, 2, 0, 0, 0⟩

/-- A group member with the capture date 2023-05-01 and modification date
2023-05-03 (the spec example's first member). -/
def fiC1A : FileInfo :=
  { name := "IMG", basename := "IMG.jpg", extension := some "jpg"
    path := "/cwd/IMG.jpg", mime := some "image/jpeg", type := some "image"
    takenAt := some may1, createdAt := may3, modifiedAt := may3 }

/-- A group member without a capture date, modified 2023-04-20 (the spec
example's second member). -/
def fiC1B : FileInfo :=
  { name := "IMG", basename := "IMG.dng", extension := some "dng"
    path := "/cwd/IMG.dng", mime := none, type := none
    takenAt := none, createdAt := apr20, modifiedAt := apr20 }

def fiImage : FileInfo :=
  { name := "a", basename := "a.jpg", extension := some "jpg"
    path := "/cwd/a.jpg", mime := some "image/jpeg", type := some "image"
    takenAt := none, createdAt := jan1, modifiedAt := jan1 }

def fiVideo : FileInfo :=
  { name := "b", basename := "b.mp4", extension := some "mp4"
    path := "/cwd/b.mp4", mime := some "video/mp4", type := some "video"
    takenAt := none, createdAt := jan2, modifiedAt := jan2 }

/-- A world in which the MIME lookup knows no type and the metadata reader
is never consulted. -/
def wPlain : FileWorld :=
  { mimeType := none, ctime := jan1, mtime := jan1, exifResult := none }

/-- A world for a JPEG whose embedded metadata the reader finds nothing in:
`exifr.parse` resolves to `undefined`. -/
def wJpegNoMeta : FileWorld :=
  { mimeType := some "image/jpeg", ctime := jan1, mtime := jan1
    exifResult := none }

/-! ## Claims -/

/-- Claim C1 (code bug).  The spec requires `resolvedDate` to be the
chronologically earliest effective date of the group, and gives the example
capturedAt = [2023-05-01, null], modifiedAt = [2023-05-03, 2023-04-20] with
expected result 2023-04-20.  The code instead sorts the `Date` objects with
JavaScript's default comparator, which compares the renderings
"Mon May 01 2023 ..." and "Thu Apr 20 2023 ..." lexicographically, so the
group resolves to 2023-05-01: the code disagrees with the spec on the
spec's own example. -/
theorem c1_group_date_uses_string_sort :
    groupDateString? [fiC1A, fiC1B] = some "2023-05-01" ∧
    chronEarliestDateString? [fiC1A, fiC1B] = some "2023-04-20" ∧
    groupDateString? [fiC1A, fiC1B] ≠ chronEarliestDateString? [fiC1A, fiC1B] := by
  decide

/-- Claim C7 (code bug).  The spec requires the mover to keep attempting
the remaining renames after one fails and to collect the failures; in the
code the rejected `await fs.promises.rename` throws out of the per-bucket
loop.  With a bucket of two files whose first rename fails, only the first
rename is ever attempted: the second file's path is absent from the
attempted list. -/
theorem c7_move_loop_stops_after_failure :
    moveLoop (fun p => p != "/cwd/a.jpg") [fiImage, fiVideo] =
      (["/cwd/a.jpg"], some "/cwd/a.jpg") ∧
    "/cwd/b.mp4" ∉ (moveLoop (fun p => p != "/cwd/a.jpg") [fiImage, fiVideo]).1 := by
  decide

/-- Claim C4, counterexample.  For a base name with no dot the claim says
the extension is the empty string; the code's `splitName.pop()` runs on an
already-emptied array and yields `undefined` (`none`), not `""`. -/
theorem c4_no_dot_extension_undefined_cex :
    extensionOf "DSC0001" = none ∧ extensionOf "DSC0001" ≠ some "" := by
  decide

/-- Claim C5, counterexample.  ".gitignore" passes the eligibility filter
(it neither starts with "._" nor equals ".DS_Store"), yet
`".gitignore".split('.')` is `["", "gitignore"]`, so the descriptor's group
key is the empty string, refuting the claimed non-emptiness. -/
theorem c5_gitignore_empty_group_key_cex :
    isValidFile ".gitignore" false = true ∧
    ((getFileInfo "/cwd/.gitignore" ".gitignore" wPlain).1.toOption.map
      (fun fi => fi.name)) = some "" := by
  decide

/-- Claim C6, counterexample.  For a JPEG on which the metadata reader
yields nothing, `exifr.parse` resolves to `undefined` and the access
`exifData.DateTimeOriginal` throws a `TypeError`: extraction raises rather
than succeeding with a null `capturedAt`, refuting the claim's
"extraction still succeeds" for that case. -/
theorem c6_exif_undefined_throws_cex :
    (getFileInfo "/cwd/x.jpg" "x.jpg" wJpegNoMeta).1.toOption = none ∧
    (getFileInfo "/cwd/x.jpg" "x.jpg" wJpegNoMeta).2 = true := by
  decide

/-- Claim C8, counterexample.  With one image group dated 2023-01-01 and
one video group dated 2023-01-02, the move stage renames the image file
into its date directory before the video group's date directory is ever
created (the per-type loop is sequential), so not every directory creation
completes before the first relocation. -/
theorem c8_all_dirs_before_renames_cex :
    mkdirsAllFirst (moveTrace "/cwd" (buildTD [fiImage, fiVideo])) = false := by
  decide

/-! ### Helper lemmas on splitting and strings -/

theorem strOf_toList (s : String) : strOf s.toList = s := by
  cases s
  rfl

theorem strOf_eq_empty {l : List Char} : strOf l = "" ↔ l = [] := by
  constructor
  · intro h
    have h2 := congrArg String.toList h
    simpa [strOf] using h2
  · intro h
    subst h
    rfl

theorem splitChar_headI (sep : Char) (l : List Char) :
    (splitChar sep l).headI = l.takeWhile (fun c => c != sep) := by
  induction l with
  | nil => rfl
  | cons c cs ih =>
    by_cases h : c = sep
    · subst h
      simp [splitChar, List.takeWhile_cons]
    · cases hsc : splitChar sep cs with
      | nil => exact absurd hsc (splitChar_ne_nil sep cs)
      | cons seg rest =>
        rw [hsc] at ih
        have hb : (c != sep) = true := by simpa using h
        simp only [splitChar, if_neg h, hsc, List.takeWhile_cons, hb, if_pos]
        simp only [List.headI] at ih ⊢
        rw [ih]

theorem splitChar_not_mem (sep : Char) (l : List Char) (h : sep ∉ l) :
    splitChar sep l = [l] := by
  induction l with
  | nil => rfl
  | cons c cs ih =>
    simp only [List.mem_cons, not_or] at h
    obtain ⟨h1, h2⟩ := h
    have hc : c ≠ sep := fun e => h1 e.symm
    simp only [splitChar, if_neg hc, ih h2]

theorem splitChar_mem_len (sep : Char) (l : List Char) (h : sep ∈ l) :
    2 ≤ (splitChar sep l).length := by
  induction l with
  | nil => cases h
  | cons c cs ih =>
    by_cases hc : c = sep
    · subst hc
      have h1 : 0 < (splitChar c cs).length :=
        List.length_pos.mpr (splitChar_ne_nil c cs)
      have hstep : splitChar c (c :: cs) = [] :: splitChar c cs := by
        simp [splitChar]
      rw [hstep, List.length_cons]
      omega
    · have hcs : sep ∈ cs := by
        rcases List.mem_cons.mp h with h1 | h1
        · exact absurd h1.symm hc
        · exact h1
      cases hsc : splitChar sep cs with
      | nil => exact absurd hsc (splitChar_ne_nil sep cs)
      | cons seg rest =>
        have h2 := ih hcs
        rw [hsc] at h2
        simp only [splitChar, if_neg hc, hsc]
        simpa using h2

theorem getLast?_cons_of_ne_nil {α : Type} (a : α) {l : List α} (h : l ≠ []) :
    (a :: l).getLast? = l.getLast? := by
  cases l with
  | nil => exact absurd rfl h
  | cons b t => exact List.getLast?_cons_cons

/-- When the separator occurs in the list, the last segment of the split is
exactly the separator-free suffix after the last separator occurrence. -/
theorem splitChar_getLast_mem (sep : Char) (l : List Char) (h : sep ∈ l) :
    ∃ pre ext, l = pre ++ sep :: ext ∧ sep ∉ ext ∧
      (splitChar sep l).getLast? = some ext := by
  induction l with
  | nil => cases h
  | cons c cs ih =>
    by_cases hcs : sep ∈ cs
    · obtain ⟨pre, ext, heq, hnm, hlast⟩ := ih hcs
      by_cases hc : c = sep
      · subst hc
        refine ⟨c :: pre, ext, by simp [heq], hnm, ?_⟩
        have hstep : splitChar c (c :: cs) = [] :: splitChar c cs := by
          simp [splitChar]
        rw [hstep, getLast?_cons_of_ne_nil _ (splitChar_ne_nil c cs), hlast]
      · cases hsc : splitChar sep cs with
        | nil => exact absurd hsc (splitChar_ne_nil sep cs)
        | cons seg rest =>
          have hrest : rest ≠ [] := by
            have h2 := splitChar_mem_len sep cs hcs
            rw [hsc] at h2
            intro e
            subst e
            simp at h2
          refine ⟨c :: pre, ext, by simp [heq], hnm, ?_⟩
          have hstep : splitChar sep (c :: cs) = (c :: seg) :: rest := by
            simp [splitChar, if_neg hc, hsc]
          rw [hsc, getLast?_cons_of_ne_nil _ hrest] at hlast
          rw [hstep, getLast?_cons_of_ne_nil _ hrest]
          exact hlast
    · have hc : c = sep := by
        rcases List.mem_cons.mp h with h1 | h1
        · exact h1.symm
        · exact absurd h1 hcs
      subst hc
      refine ⟨[], cs, rfl, hcs, ?_⟩
      have hsp : splitChar c (c :: cs) = [] :: [cs] := by
        simp [splitChar, splitChar_not_mem c cs hcs]
      rw [hsp]
      rfl

/-! ### Claim C2 -/

theorem isMediaType_elim {t : Option String} (h : isMediaType t = true) :
    ∃ s, t = some s ∧ s ≠ "" := by
  cases t with
  | none => simp [isMediaType] at h
  | some s =>
    refine ⟨s, rfl, ?_⟩
    have h2 : s = "image" ∨ s = "audio" ∨ s = "video" := by
      simpa [isMediaType, List.contains] using h
    rcases h2 with h1 | h1 | h1 <;> subst h1 <;> decide

/-- Resolved type as the claim words it: the coarse type of the first
member, in discovered order, whose coarse type is image, audio or video;
"other" when no member has one. -/
def specResolvedType (fis : List FileInfo) : String :=
  match fis.find? (fun fi => isMediaType fi.type) with
  | some fi =>
    match fi.type with
    | some t => t
    | none => "other"
  | none => "other"

/-- A member of a group whose coarse type is not one of the three media
types (a PDF sidecar). -/
def fiDoc : FileInfo :=
  { name := "g", basename := "g.pdf", extension := some "pdf"
    path := "/cwd/g.pdf", mime := some "application/pdf"
    type := some "application", takenAt := none, createdAt := jan1
    modifiedAt := jan1 }

def fiVideoG : FileInfo :=
  { name := "g", basename := "g.mov", extension := some "mov"
    path := "/cwd/g.mov", mime := some "video/quicktime", type := some "video"
    takenAt := none, createdAt := jan1, modifiedAt := jan1 }

def fiImageG : FileInfo :=
  { name := "g", basename := "g.jpg", extension := some "jpg"
    path := "/cwd/g.jpg", mime := some "image/jpeg", type := some "image"
    takenAt := none, createdAt := jan2, modifiedAt := jan2 }

/-- Claim C2 (confirmed).  The reducer's type is the coarse type of the
first member, in discovered order, whose coarse type is image, audio or
video, defaulting to "other"; on the group with coarse types
application ("other"), video, image, in that order, it resolves to
"video". -/
theorem c2_resolved_type_first_media_member :
    (∀ fis : List FileInfo, groupTypeOf fis = specResolvedType fis) ∧
    groupTypeOf [fiDoc, fiVideoG, fiImageG] = "video" := by
  refine ⟨?_, by decide⟩
  intro fis
  induction fis with
  | nil => rfl
  | cons fi rest ih =>
    by_cases h : isMediaType fi.type = true
    · obtain ⟨s, hs, hne⟩ := isMediaType_elim h
      have hfind : List.find? (fun fi => isMediaType fi.type) (fi :: rest) = some fi :=
        List.find?_cons_of_pos rest h
      unfold groupTypeOf specResolvedType jsTruthyOr
      rw [List.filter_cons, if_pos h, List.map_cons, List.head?_cons, hfind]
      simp [hs, hne]
    · have hfind : List.find? (fun fi => isMediaType fi.type) (fi :: rest) =
          List.find? (fun fi => isMediaType fi.type) rest :=
        List.find?_cons_of_neg rest h
      unfold groupTypeOf specResolvedType at ih ⊢
      rw [List.filter_cons, if_neg h, hfind]
      exact ih

/-! ### Claim C4 -/

/-- The group key as the spec words it: the portion of the base name
before its first dot. -/
def specGroupKey (base : String) : String :=
  strOf (base.toList.takeWhile (fun c => c != '.'))

/-- Claim C4, amended (corrected).  Group key is the segment before the
first dot; for a dotted name the extension is the dot-free suffix after the
last dot; for a name with no dot the group key is the whole name and the
extension is `undefined` (absent), not the empty string; the named examples
hold. -/
theorem c4_group_key_extension_amended :
    (∀ base : String, groupKeyOf base = specGroupKey base) ∧
    (∀ base : String, '.' ∈ base.toList →
      ∃ pre ext, base.toList = pre ++ '.' :: ext ∧ '.' ∉ ext ∧
        extensionOf base = some (strOf ext)) ∧
    (∀ base : String, '.' ∉ base.toList →
      groupKeyOf base = base ∧ extensionOf base = none) ∧
    (groupKeyOf "DSC0001.jpg" = "DSC0001" ∧ groupKeyOf "DSC0001.dng" = "DSC0001" ∧
      groupKeyOf "DSC0001.edited.jpg" = "DSC0001" ∧ groupKeyOf "a.b" = "a" ∧
      extensionOf "a.b" = some "b") := by
  refine ⟨?_, ?_, ?_, by decide⟩
  · intro base
    unfold groupKeyOf specGroupKey
    rw [splitChar_headI]
  · intro base h
    obtain ⟨pre, ext, heq, hnm, hlast⟩ := splitChar_getLast_mem '.' base.toList h
    refine ⟨pre, ext, heq, hnm, ?_⟩
    unfold extensionOf
    have hlen := splitChar_mem_len '.' base.toList h
    cases hsc : splitChar '.' base.toList with
    | nil => exact absurd hsc (splitChar_ne_nil _ _)
    | cons s0 rest =>
      rw [hsc] at hlast hlen
      have hrest : rest ≠ [] := by
        intro e
        subst e
        simp at hlen
      rw [getLast?_cons_of_ne_nil _ hrest] at hlast
      simp [hsc, hlast]
  · intro base h
    constructor
    · unfold groupKeyOf
      rw [splitChar_not_mem '.' _ h]
      simpa [List.headI] using strOf_toList base
    · unfold extensionOf
      rw [splitChar_not_mem '.' _ h]
      rfl

/-- Witness for C4's amended statement at the concrete name "a.b". -/
theorem c4_amended_witness :
    '.' ∈ "a.b".toList ∧
    (∃ pre ext, "a.b".toList = pre ++ '.' :: ext ∧ '.' ∉ ext ∧
      extensionOf "a.b" = some (strOf ext)) :=
  ⟨by decide, c4_group_key_extension_amended.2.1 "a.b" (by decide)⟩

/-! ### Claim C5 -/

/-- All success branches of extraction produce the same name-derived
fields. -/
theorem getFileInfo_ok_shape (p base : String) (w : FileWorld) (fi : FileInfo)
    (hok : (getFileInfo p base w).1 = Except.ok fi) :
    fi.name = groupKeyOf base ∧ fi.basename = base ∧
      fi.extension = extensionOf base ∧ fi.path = p := by
  unfold getFileInfo at hok
  by_cases h : attemptsMetadata w.mimeType = true
  · rw [if_pos h] at hok
    cases he : w.exifResult with
    | none =>
      rw [he] at hok
      exact absurd hok (by simp)
    | some e =>
      rw [he] at hok
      simp only at hok
      injection hok with h2
      subst h2
      exact ⟨rfl, rfl, rfl, rfl⟩
  · rw [if_neg h] at hok
    simp only at hok
    injection hok with h2
    subst h2
    exact ⟨rfl, rfl, rfl, rfl⟩

theorem groupKeyOf_empty_iff (base : String) (hb : base ≠ "") :
    groupKeyOf base = "" ↔ base.toList.head? = some '.' := by
  unfold groupKeyOf
  rw [splitChar_headI]
  cases hl : base.toList with
  | nil =>
    exfalso
    apply hb
    cases base with
    | mk data =>
      simp only [String.toList] at hl
      rw [hl]
  | cons c cs =>
    by_cases h : c = '.'
    · subst h
      simp [List.takeWhile_cons, strOf_eq_empty]
    · have hb2 : (c != '.') = true := by simpa using h
      simp [List.takeWhile_cons, hb2, strOf_eq_empty, h]

/-- Claim C5, amended (corrected).  For every descriptor surviving the
eligibility filter, `baseName` is the (non-empty) entry name; `groupKey` is
empty exactly when the entry name begins with a dot, so it is non-empty for
every eligible name not starting with ".", but empty for names such as
".gitignore". -/
theorem c5_nonempty_amended :
    ∀ (p base : String) (isDir : Bool) (w : FileWorld) (fi : FileInfo),
      base ≠ "" → isValidFile base isDir = true →
      (getFileInfo p base w).1 = Except.ok fi →
      fi.basename = base ∧ fi.basename ≠ "" ∧
        (fi.name = "" ↔ base.toList.head? = some '.') := by
  intro p base isDir w fi hb _hval hok
  obtain ⟨hname, hbase, _, _⟩ := getFileInfo_ok_shape p base w fi hok
  refine ⟨hbase, by rw [hbase]; exact hb, ?_⟩
  rw [hname]
  exact groupKeyOf_empty_iff base hb

/-- The descriptor extraction produces for the eligible name
"DSC0001.jpg" in the plain world. -/
def fiDSC : FileInfo :=
  { name := "DSC0001", basename := "DSC0001.jpg", extension := some "jpg"
    path := "/cwd/DSC0001.jpg", mime := none, type := none
    takenAt := none, createdAt := jan1, modifiedAt := jan1 }

/-- Witness for C5's amended statement on the concrete eligible name
"DSC0001.jpg". -/
theorem c5_amended_witness :
    ("DSC0001.jpg" : String) ≠ "" ∧ isValidFile "DSC0001.jpg" false = true ∧
    (getFileInfo "/cwd/DSC0001.jpg" "DSC0001.jpg" wPlain).1 = Except.ok fiDSC ∧
    (fiDSC.basename = "DSC0001.jpg" ∧ fiDSC.basename ≠ "" ∧
      (fiDSC.name = "" ↔ ("DSC0001.jpg" : String).toList.head? = some '.')) :=
  ⟨by decide, by decide, by rfl,
    c5_nonempty_amended "/cwd/DSC0001.jpg" "DSC0001.jpg" false wPlain fiDSC
      (by decide) (by decide) (by rfl)⟩

/-! ### Claim C6 -/

/-- Claim C6, amended (corrected).  Reading file content happens exactly
when the MIME type is image/jpeg or image/tiff; for other MIME types
extraction succeeds with a null `capturedAt` and no content read; for a
metadata-carrying type whose reader returns a metadata object, extraction
succeeds with `capturedAt` equal to the object's date-time-original field
(null when absent) — but when the reader yields nothing (`undefined`),
extraction throws a `TypeError` instead of succeeding. -/
theorem c6_metadata_amended :
    ∀ (p base : String) (w : FileWorld),
      ((getFileInfo p base w).2 = attemptsMetadata w.mimeType) ∧
      (attemptsMetadata w.mimeType = false →
        (getFileInfo p base w).1.toOption.map (fun fi => fi.takenAt) = some none) ∧
      (∀ e, attemptsMetadata w.mimeType = true → w.exifResult = some e →
        (getFileInfo p base w).1.toOption.map (fun fi => fi.takenAt) =
          some e.DateTimeOriginal) ∧
      (attemptsMetadata w.mimeType = true → w.exifResult = none →
        (getFileInfo p base w).1 = Except.error JSError.typeError) := by
  intro p base w
  by_cases h : attemptsMetadata w.mimeType = true
  · cases he : w.exifResult with
    | none =>
      refine ⟨?_, ?_, ?_, ?_⟩
      · simp [getFileInfo, h, he]
      · intro hf
        rw [h] at hf
        exact absurd hf (by simp)
      · intro e _ he2
        exact absurd he2 (by simp)
      · intro _ _
        simp [getFileInfo, h, he]
    | some e0 =>
      refine ⟨?_, ?_, ?_, ?_⟩
      · simp [getFileInfo, h, he]
      · intro hf
        rw [h] at hf
        exact absurd hf (by simp)
      · intro e _ he2
        injection he2 with he3
        subst he3
        simp [getFileInfo, h, he, Except.toOption]
      · intro _ he2
        exact absurd he2 (by simp)
  · have hf : attemptsMetadata w.mimeType = false := by
      simpa using h
    refine ⟨?_, ?_, ?_, ?_⟩
    · simp [getFileInfo, hf]
    · intro _
      simp [getFileInfo, hf, Except.toOption]
    · intro e ht _
      rw [ht] at hf
      exact absurd hf (by simp)
    · intro ht _
      rw [ht] at hf
      exact absurd hf (by simp)

/-- A world for a JPEG whose metadata object exists but carries no
date-time-original field. -/
def wJpegMeta : FileWorld :=
  { mimeType := some "image/jpeg", ctime := jan1, mtime := jan1
    exifResult := some { DateTimeOriginal := none } }

/-- Witness for C6's amended statement: a JPEG with a metadata object that
lacks the date field still extracts, with a null capture date. -/
theorem c6_metadata_amended_witness :
    attemptsMetadata wJpegMeta.mimeType = true ∧
    wJpegMeta.exifResult = some { DateTimeOriginal := none } ∧
    (getFileInfo "/cwd/x.jpg" "x.jpg" wJpegMeta).1.toOption.map
      (fun fi => fi.takenAt) =
      some ({ DateTimeOriginal := none } : ExifData).DateTimeOriginal :=
  ⟨by decide, rfl,
    (c6_metadata_amended "/cwd/x.jpg" "x.jpg" wJpegMeta).2.2.1
      { DateTimeOriginal := none } (by decide) rfl⟩

/-! ### Claim C9 -/

theorem listingAfter_nil_events (fis : List FileInfo) : listingAfter fis [] = fis := by
  unfold listingAfter movedSources
  simp

/-- Claim C9 (confirmed).  Without the "move" subcommand the run emits no
filesystem events (no mkdir, no rename), exits 0, the directory listing is
unchanged, and a second preview run over the resulting listing produces
the identical output (same table, same absence of events). -/
theorem c9_preview_no_mutation :
    ∀ (cwd : String) (cmd : Option String) (fis : List FileInfo),
      cmd ≠ some "move" →
      (mainRun cwd cmd fis).events = [] ∧
      listingAfter fis (mainRun cwd cmd fis).events = fis ∧
      mainRun cwd cmd (listingAfter fis (mainRun cwd cmd fis).events) =
        mainRun cwd cmd fis ∧
      (mainRun cwd cmd fis).exitCode = 0 := by
  intro cwd cmd fis h
  have he : (mainRun cwd cmd fis).events = [] := by
    simp [mainRun, h]
  refine ⟨he, ?_, ?_, rfl⟩
  · rw [he, listingAfter_nil_events]
  · rw [he, listingAfter_nil_events]

/-- Witness for C9 at a concrete preview invocation. -/
theorem c9_preview_no_mutation_witness :
    (none : Option String) ≠ some "move" ∧
    ((mainRun "/cwd" none [fiImage]).events = [] ∧
      listingAfter [fiImage] (mainRun "/cwd" none [fiImage]).events = [fiImage] ∧
      mainRun "/cwd" none (listingAfter [fiImage] (mainRun "/cwd" none [fiImage]).events) =
        mainRun "/cwd" none [fiImage] ∧
      (mainRun "/cwd" none [fiImage]).exitCode = 0) :=
  ⟨by decide, c9_preview_no_mutation "/cwd" none [fiImage] (by decide)⟩

/-! ### Claim C10 -/

theorem fillFold_length (f : Nat → FileInfo) (s : List Nat)
    (acc : List (Option FileInfo)) :
    (s.foldl (fun a i => a.set i (some (f i))) acc).length = acc.length := by
  induction s generalizing acc with
  | nil => rfl
  | cons j s2 ih => rw [List.foldl_cons, ih, List.length_set]

/-- After all completions, the slot of every task listed in the schedule
holds that task's own result, and untouched slots are unchanged. -/
theorem fillFold_getElem (f : Nat → FileInfo) (s : List Nat)
    (acc : List (Option FileInfo)) (i : Nat) (hi : i < acc.length) :
    (s.foldl (fun a j => a.set j (some (f j))) acc)[i]? =
      if i ∈ s then some (some (f i)) else acc[i]? := by
  induction s generalizing acc with
  | nil => simp
  | cons j s2 ih =>
    rw [List.foldl_cons]
    have hi2 : i < (acc.set j (some (f j))).length := by
      rw [List.length_set]
      exact hi
    rw [ih (acc.set j (some (f j))) hi2]
    by_cases hmem : i ∈ s2
    · simp [hmem, List.mem_cons]
    · by_cases hij : i = j
      · subst hij
        simp [hmem, List.mem_cons, List.getElem?_set_eq_of_lt _ hi]
      · have hji : j ≠ i := fun e => hij e.symm
        simp [hmem, hij, List.mem_cons, List.getElem?_set_ne hji]

theorem collectAll_map_some (l : List FileInfo) :
    collectAll (l.map some) = some l := by
  induction l with
  | nil => rfl
  | cons x xs ih => simp [collectAll, ih]

theorem getD_range_map (l : List String) (d : String) :
    (List.range l.length).map (fun i => l.getD i d) = l := by
  induction l with
  | nil => rfl
  | cons x xs ih =>
    rw [List.length_cons, List.range_succ_eq_map, List.map_cons, List.map_map]
    have h2 : ((fun i => (x :: xs).getD i d) ∘ Nat.succ) =
        (fun i => xs.getD i d) := by
      funext i
      rfl
    rw [h2, ih]
    rfl

/-- A complete schedule fills every slot with the slot's own task result. -/
theorem fillResults_complete (f : Nat → FileInfo) (s : List Nat) (n : Nat)
    (hs : ∀ i, i < n → i ∈ s) :
    fillResults f s n = (List.range n).map (fun i => some (f i)) := by
  apply List.ext_getElem?
  intro i
  by_cases hi : i < n
  · have hlen : i < (List.replicate n (none : Option FileInfo)).length := by
      rw [List.length_replicate]
      exact hi
    rw [fillResults, fillFold_getElem f s _ i hlen, if_pos (hs i hi),
      List.getElem?_map, List.getElem?_range hi]
    rfl
  · have h1 : (fillResults f s n).length = n := by
      rw [fillResults, fillFold_length, List.length_replicate]
    have h2 : ((List.range n).map (fun i => some (f i))).length = n := by
      rw [List.length_map, List.length_range]
    rw [List.getElem?_eq_none, List.getElem?_eq_none]
    · rw [h2]
      omega
    · rw [h1]
      omega

/-- With a complete schedule, `Promise.all` returns exactly the extraction
of each listed file, in listing order. -/
theorem promiseAllExtract_complete (files : List String)
    (extract : String → FileInfo) (s : List Nat)
    (hs : ∀ i, i < files.length → i ∈ s) :
    promiseAllExtract files extract s = some (files.map extract) := by
  unfold promiseAllExtract
  rw [fillResults_complete _ s files.length hs]
  have h1 : (List.range files.length).map
      (fun i => some (extract (files.getD i ""))) =
      ((List.range files.length).map
        (fun i => extract (files.getD i ""))).map some := by
    rw [List.map_map]
    rfl
  rw [h1, collectAll_map_some]
  have h2 : (List.range files.length).map (fun i => extract (files.getD i "")) =
      ((List.range files.length).map (fun i => files.getD i "")).map extract := by
    rw [List.map_map]
    rfl
  rw [h2, getD_range_map]

/-- Claim C10 (confirmed).  With the listing and the collaborators fixed,
the extraction stage's output — and hence the descriptors, the groups, the
buckets, the table and the plan — is the same for every complete completion
schedule: the unordered concurrency introduces no nondeterminism. -/
theorem c10_schedule_independent :
    ∀ (cwd : String) (files : List String) (extract : String → FileInfo)
      (s1 s2 : List Nat),
      (∀ i, i < files.length → i ∈ s1) →
      (∀ i, i < files.length → i ∈ s2) →
      promiseAllExtract files extract s1 = some (files.map extract) ∧
      pipelineFromSchedule cwd files extract s1 =
        pipelineFromSchedule cwd files extract s2 := by
  intro cwd files extract s1 s2 h1 h2
  refine ⟨promiseAllExtract_complete files extract s1 h1, ?_⟩
  unfold pipelineFromSchedule
  rw [promiseAllExtract_complete files extract s1 h1,
    promiseAllExtract_complete files extract s2 h2]

/-- Witness for C10: two listed files, their extraction results, and the
two opposite completion orders. -/
theorem c10_schedule_independent_witness :
    (∀ i, i < (["a.jpg", "b.mp4"] : List String).length → i ∈ ([0, 1] : List Nat)) ∧
    (∀ i, i < (["a.jpg", "b.mp4"] : List String).length → i ∈ ([1, 0] : List Nat)) ∧
    (promiseAllExtract ["a.jpg", "b.mp4"]
        (fun p => if p = "a.jpg" then fiImage else fiVideo) [0, 1] =
      some [fiImage, fiVideo] ∧
      pipelineFromSchedule "/cwd" ["a.jpg", "b.mp4"]
          (fun p => if p = "a.jpg" then fiImage else fiVideo) [0, 1] =
        pipelineFromSchedule "/cwd" ["a.jpg", "b.mp4"]
          (fun p => if p = "a.jpg" then fiImage else fiVideo) [1, 0]) := by
  have h1 : ∀ i, i < (["a.jpg", "b.mp4"] : List String).length →
      i ∈ ([0, 1] : List Nat) := by
    intro i hi
    have hi2 : i < 2 := by simpa using hi
    interval_cases i <;> decide
  have h2 : ∀ i, i < (["a.jpg", "b.mp4"] : List String).length →
      i ∈ ([1, 0] : List Nat) := by
    intro i hi
    have hi2 : i < 2 := by simpa using hi
    interval_cases i <;> decide
  have h3 := c10_schedule_independent "/cwd" ["a.jpg", "b.mp4"]
    (fun p => if p = "a.jpg" then fiImage else fiVideo) [0, 1] [1, 0] h1 h2
  refine ⟨h1, h2, ?_, h3.2⟩
  rw [h3.1]
  rfl

/-! ### Claim C8, amended -/

/-- Directories created by a trace, accumulated onto `made`. -/
def dirsMade (made : List String) : List FsEvent → List String
  | [] => made
  | FsEvent.mkdirType p :: rest => dirsMade (p :: made) rest
  | FsEvent.mkdirDate p :: rest => dirsMade (p :: made) rest
  | FsEvent.renameEvt _ _ _ :: rest => dirsMade made rest

theorem mem_dirsMade_of_mem (t : List FsEvent) (made : List String) (x : String)
    (h : x ∈ made) : x ∈ dirsMade made t := by
  induction t generalizing made with
  | nil => exact h
  | cons e rest ih =>
    cases e with
    | mkdirType p => exact ih (p :: made) (List.mem_cons_of_mem p h)
    | mkdirDate p => exact ih (p :: made) (List.mem_cons_of_mem p h)
    | renameEvt src dst dir => exact ih made h

theorem renamesAfterMkdir_append (xs ys : List FsEvent) (made : List String)
    (h1 : renamesAfterMkdir made xs = true)
    (h2 : renamesAfterMkdir (dirsMade made xs) ys = true) :
    renamesAfterMkdir made (xs ++ ys) = true := by
  induction xs generalizing made with
  | nil => exact h2
  | cons e rest ih =>
    cases e with
    | mkdirType p => exact ih (p :: made) h1 h2
    | mkdirDate p => exact ih (p :: made) h1 h2
    | renameEvt src dst dir =>
      simp only [renamesAfterMkdir, List.cons_append, Bool.and_eq_true] at h1 ⊢
      exact ⟨h1.1, ih made h1.2 h2⟩

theorem dirsMade_renames (grp : List FileInfo) (made : List String)
    (f : FileInfo → FsEvent)
    (hf : ∀ fi, ∃ s d r, f fi = FsEvent.renameEvt s d r) :
    dirsMade made (grp.map f) = made := by
  induction grp generalizing made with
  | nil => rfl
  | cons fi rest ih =>
    obtain ⟨s, d, r, he⟩ := hf fi
    rw [List.map_cons, he]
    exact ih made

theorem renamesAfterMkdir_renames (grp : List FileInfo) (made : List String)
    (dir : String) (hd : dir ∈ made) (mk : FileInfo → String → String) :
    renamesAfterMkdir made
      (grp.map (fun fi => FsEvent.renameEvt fi.path (mk fi dir) dir)) = true := by
  induction grp with
  | nil => rfl
  | cons fi rest ih =>
    simp only [List.map_cons, renamesAfterMkdir, Bool.and_eq_true]
    refine ⟨?_, ih⟩
    simpa [List.contains] using hd

theorem renamesAfterMkdir_dateTrace (cwd t : String)
    (dates : List (String × List FileInfo)) (made : List String) :
    renamesAfterMkdir made (dateTrace cwd t dates) = true := by
  induction dates generalizing made with
  | nil => rfl
  | cons dd rest ih =>
    obtain ⟨d, fs⟩ := dd
    simp only [dateTrace, renamesAfterMkdir]
    apply renamesAfterMkdir_append
    · exact renamesAfterMkdir_renames fs (dateDir cwd t d :: made) (dateDir cwd t d)
        (List.mem_cons_self _ _) (fun fi dir => pathJoin dir fi.basename)
    · rw [dirsMade_renames]
      · exact ih _
      · intro fi
        exact ⟨fi.path, pathJoin (dateDir cwd t d) fi.basename, dateDir cwd t d, rfl⟩

theorem renamesAfterMkdir_bodyTrace (cwd : String) (m : TDMap)
    (made : List String) :
    renamesAfterMkdir made (bodyTrace cwd m) = true := by
  induction m generalizing made with
  | nil => rfl
  | cons td rest ih =>
    obtain ⟨t, dates⟩ := td
    simp only [bodyTrace]
    exact renamesAfterMkdir_append _ _ made
      (renamesAfterMkdir_dateTrace cwd t dates made) (ih _)

theorem renamesAfterMkdir_moveTrace (cwd : String) (m : TDMap)
    (m2 : TDMap) (made : List String) :
    renamesAfterMkdir made
      ((m2.map (fun td => FsEvent.mkdirType (pathJoin cwd (typeDirName td.1)))) ++
        bodyTrace cwd m) = true := by
  induction m2 generalizing made with
  | nil => exact renamesAfterMkdir_bodyTrace cwd m made
  | cons td rest ih =>
    simp only [List.map_cons, List.cons_append, renamesAfterMkdir]
    exact ih _

theorem noMkdirType_dateTrace (cwd t : String)
    (dates : List (String × List FileInfo)) :
    noMkdirType (dateTrace cwd t dates) = true := by
  induction dates with
  | nil => rfl
  | cons dd rest ih =>
    obtain ⟨d, fs⟩ := dd
    simp only [dateTrace, noMkdirType, List.all_cons, List.all_append,
      Bool.and_eq_true]
    refine ⟨rfl, ?_, ?_⟩
    · rw [List.all_eq_true]
      intro e he
      obtain ⟨fi, _, hfe⟩ := List.mem_map.mp he
      rw [← hfe]
      rfl
    · simpa [noMkdirType] using ih

theorem noMkdirType_bodyTrace (cwd : String) (m : TDMap) :
    noMkdirType (bodyTrace cwd m) = true := by
  induction m with
  | nil => rfl
  | cons td rest ih =>
    obtain ⟨t, dates⟩ := td
    simp only [bodyTrace, noMkdirType, List.all_append, Bool.and_eq_true]
    exact ⟨by simpa [noMkdirType] using noMkdirType_dateTrace cwd t dates,
      by simpa [noMkdirType] using ih⟩

theorem noMkdirType_tail {e : FsEvent} {rest : List FsEvent}
    (h : noMkdirType (e :: rest) = true) : noMkdirType rest = true := by
  simp only [noMkdirType, List.all_cons, Bool.and_eq_true] at h
  exact h.2

theorem typeDirsBeforeRenames_of_noMkdirType (t : List FsEvent)
    (h : noMkdirType t = true) : typeDirsBeforeRenames t = true := by
  induction t with
  | nil => rfl
  | cons e rest ih =>
    simp only [typeDirsBeforeRenames]
    by_cases hr : isRenameEvt e = true
    · rw [if_pos hr]
      exact noMkdirType_tail h
    · rw [if_neg hr]
      exact ih (noMkdirType_tail h)

theorem typeDirsBeforeRenames_moveTrace (cwd : String) (m m2 : TDMap) :
    typeDirsBeforeRenames
      ((m2.map (fun td => FsEvent.mkdirType (pathJoin cwd (typeDirName td.1)))) ++
        bodyTrace cwd m) = true := by
  induction m2 with
  | nil =>
    simp only [List.map_nil, List.nil_append]
    exact typeDirsBeforeRenames_of_noMkdirType _ (noMkdirType_bodyTrace cwd m)
  | cons td rest ih =>
    simp only [List.map_cons, List.cons_append, typeDirsBeforeRenames]
    rw [if_neg (by simp [isRenameEvt])]
    exact ih

/-- Claim C8, amended (corrected).  In every move-mode execution: all
type-level directories are created before any relocation, and each rename
only targets a directory (its group's date directory) that was created by
an earlier event — but, as the counterexample shows, a date-level directory
of one group may be created after relocations into other directories have
already happened, so not all directory creation precedes the first
relocation. -/
theorem c8_dir_creation_amended :
    ∀ (cwd : String) (fis : List FileInfo),
      renamesAfterMkdir [] (moveTrace cwd (buildTD fis)) = true ∧
      typeDirsBeforeRenames (moveTrace cwd (buildTD fis)) = true := by
  intro cwd fis
  constructor
  · exact renamesAfterMkdir_moveTrace cwd (buildTD fis) (buildTD fis) []
  · exact typeDirsBeforeRenames_moveTrace cwd (buildTD fis) (buildTD fis)

/-! ### Claim C3 -/

theorem entriesOfDates_nil (cwd t : String) : entriesOfDates cwd t [] = [] := rfl

theorem entriesOfDates_cons (cwd t d : String) (fs : List FileInfo)
    (rest : List (String × List FileInfo)) :
    entriesOfDates cwd t ((d, fs) :: rest) =
      fs.map (fun fi => (fi, pathJoin (dateDir cwd t d) fi.basename)) ++
        entriesOfDates cwd t rest := by
  unfold entriesOfDates
  rw [List.flatMap_cons]

theorem planEntries_nil (cwd : String) : planEntries cwd [] = [] := rfl

theorem planEntries_cons (cwd t : String) (dates : List (String × List FileInfo))
    (rest : TDMap) :
    planEntries cwd ((t, dates) :: rest) =
      entriesOfDates cwd t dates ++ planEntries cwd rest := by
  unfold planEntries
  rw [List.flatMap_cons]

theorem mem_map_pair (grp : List FileInfo) (g : FileInfo → String)
    (p : FileInfo × String) :
    p ∈ grp.map (fun fi => (fi, g fi)) ↔ ∃ fi ∈ grp, p = (fi, g fi) := by
  rw [List.mem_map]
  constructor
  · rintro ⟨fi, hm, he⟩
    exact ⟨fi, hm, he.symm⟩
  · rintro ⟨fi, hm, he⟩
    exact ⟨fi, hm, he.symm⟩

theorem pushDate_cons_eq (d : String) (fs : List FileInfo)
    (rest : List (String × List FileInfo)) (grp : List FileInfo) :
    pushDate ((d, fs) :: rest) d grp = (d, fs ++ grp) :: rest := by
  simp [pushDate]

theorem pushDate_cons_ne (d2 d : String) (fs : List FileInfo)
    (rest : List (String × List FileInfo)) (grp : List FileInfo) (h : d2 ≠ d) :
    pushDate ((d2, fs) :: rest) d grp = (d2, fs) :: pushDate rest d grp := by
  simp [pushDate, h]

theorem pushTD_cons_eq (t d : String) (dates : List (String × List FileInfo))
    (rest : TDMap) (grp : List FileInfo) :
    pushTD ((t, dates) :: rest) t d grp = (t, pushDate dates d grp) :: rest := by
  simp [pushTD]

theorem pushTD_cons_ne (t2 t d : String) (dates : List (String × List FileInfo))
    (rest : TDMap) (grp : List FileInfo) (h : t2 ≠ t) :
    pushTD ((t2, dates) :: rest) t d grp = (t2, dates) :: pushTD rest t d grp := by
  simp [pushTD, h]

/-- Pushing a group onto a date bucket adds exactly that group's entries,
with the bucket's directory, to the bucket list's entries. -/
theorem mem_entriesOfDates_pushDate (cwd t d : String)
    (dates : List (String × List FileInfo)) (grp : List FileInfo)
    (p : FileInfo × String) :
    p ∈ entriesOfDates cwd t (pushDate dates d grp) ↔
      p ∈ entriesOfDates cwd t dates ∨
        ∃ fi ∈ grp, p = (fi, pathJoin (dateDir cwd t d) fi.basename) := by
  induction dates with
  | nil =>
    show p ∈ entriesOfDates cwd t [(d, grp)] ↔ _
    rw [entriesOfDates_cons, entriesOfDates_nil, List.append_nil, mem_map_pair]
    simp
  | cons dd rest ih =>
    obtain ⟨d2, fs⟩ := dd
    by_cases hd : d2 = d
    · subst hd
      clear ih
      rw [pushDate_cons_eq, entriesOfDates_cons, entriesOfDates_cons,
        List.map_append, List.mem_append, List.mem_append, List.mem_append]
      simp only [mem_map_pair]
      constructor
      · rintro ((h | h) | h)
        · exact Or.inl (Or.inl h)
        · exact Or.inr h
        · exact Or.inl (Or.inr h)
      · rintro ((h | h) | h)
        · exact Or.inl (Or.inl h)
        · exact Or.inr h
        · exact Or.inl (Or.inr h)
    · rw [pushDate_cons_ne d2 d fs rest grp hd, entriesOfDates_cons,
        entriesOfDates_cons, List.mem_append, List.mem_append, ih]
      exact or_assoc.symm

/-- Pushing a group into the two-level listing adds exactly that group's
entries to the whole listing's entries. -/
theorem mem_planEntries_pushTD (cwd t d : String) (m : TDMap)
    (grp : List FileInfo) (p : FileInfo × String) :
    p ∈ planEntries cwd (pushTD m t d grp) ↔
      p ∈ planEntries cwd m ∨
        ∃ fi ∈ grp, p = (fi, pathJoin (dateDir cwd t d) fi.basename) := by
  induction m with
  | nil =>
    show p ∈ planEntries cwd [(t, [(d, grp)])] ↔ _
    rw [planEntries_cons, planEntries_nil, List.append_nil, entriesOfDates_cons,
      entriesOfDates_nil, List.append_nil, mem_map_pair]
    simp
  | cons td rest ih =>
    obtain ⟨t2, dates⟩ := td
    by_cases ht : t2 = t
    · subst ht
      clear ih
      rw [pushTD_cons_eq, planEntries_cons, planEntries_cons, List.mem_append,
        List.mem_append, mem_entriesOfDates_pushDate]
      constructor
      · rintro ((h | h) | h)
        · exact Or.inl (Or.inl h)
        · exact Or.inr h
        · exact Or.inl (Or.inr h)
      · rintro ((h | h) | h)
        · exact Or.inl (Or.inl h)
        · exact Or.inr h
        · exact Or.inl (Or.inr h)
    · rw [pushTD_cons_ne t2 t d dates rest grp ht, planEntries_cons,
        planEntries_cons, List.mem_append, List.mem_append, ih]
      exact or_assoc.symm

theorem mem_foldl_insertKey (names : List String) (acc : List String)
    (k : String) :
    k ∈ names.foldl insertKey acc ↔ k ∈ acc ∨ k ∈ names := by
  induction names generalizing acc with
  | nil => simp
  | cons n rest ih =>
    rw [List.foldl_cons, ih]
    unfold insertKey
    by_cases hc : acc.contains n = true
    · rw [if_pos hc]
      have hn : n ∈ acc := by simpa using hc
      constructor
      · rintro (h | h)
        · exact Or.inl h
        · exact Or.inr (List.mem_cons_of_mem _ h)
      · rintro (h | h)
        · exact Or.inl h
        · rcases List.mem_cons.mp h with h1 | h1
          · exact Or.inl (h1 ▸ hn)
          · exact Or.inr h1
    · rw [if_neg hc]
      simp only [List.mem_append, List.mem_cons, List.mem_singleton]
      tauto

/-- A key is grouped exactly when some descriptor bears it. -/
theorem mem_groupKeys (fis : List FileInfo) (k : String) :
    k ∈ groupKeys fis ↔ ∃ fi ∈ fis, fi.name = k := by
  unfold groupKeys
  rw [mem_foldl_insertKey]
  simp [List.mem_map]

theorem insertByToString_length (x : JSDate) (l : List JSDate) :
    (insertByToString x l).length = l.length + 1 := by
  induction l with
  | nil => rfl
  | cons e rest ih =>
    cases h : jsStringLt x e with
    | true => simp [insertByToString, h]
    | false => simp [insertByToString, h, ih]

theorem jsSortDates_foldl_length (l : List JSDate) (acc : List JSDate) :
    (l.foldl (fun acc x => insertByToString x acc) acc).length =
      acc.length + l.length := by
  induction l generalizing acc with
  | nil => rfl
  | cons x rest ih =>
    rw [List.foldl_cons, ih, insertByToString_length, List.length_cons]
    omega

/-- A non-empty group always gets a resolved date string (the JavaScript
code would only throw on an empty group, which never arises). -/
theorem groupDateString?_isSome (fis : List FileInfo) (h : fis ≠ []) :
    ∃ ds, groupDateString? fis = some ds := by
  unfold groupDateString? groupDate?
  cases hs : jsSortDates (effectiveDates fis) with
  | nil =>
    exfalso
    have h1 := jsSortDates_foldl_length (effectiveDates fis) []
    unfold jsSortDates at hs
    rw [hs] at h1
    simp only [List.length_nil, Nat.zero_add] at h1
    have h2 : (effectiveDates fis).length = fis.length := by
      unfold effectiveDates
      rw [List.length_map]
    rw [h2] at h1
    exact h (List.length_eq_zero.mp h1.symm)
  | cons d rest => exact ⟨isoDateString d, rfl⟩

/-- The contribution one group key makes to the plan. -/
def contribOf (cwd : String) (fis : List FileInfo) (k : String)
    (p : FileInfo × String) : Prop :=
  ∃ fi ∈ grpOf fis k, ∃ ds, groupDateString? (grpOf fis k) = some ds ∧
    p = (fi, pathJoin (dateDir cwd (groupTypeOf (grpOf fis k)) ds) fi.basename)

/-- Membership in the entries of the group-processing fold. -/
theorem mem_planEntries_foldl (cwd : String) (fis : List FileInfo)
    (ks : List String) (acc : TDMap) (p : FileInfo × String) :
    p ∈ planEntries cwd (ks.foldl
        (fun m k =>
          let grp := grpOf fis k
          match groupDateString? grp with
          | some ds => pushTD m (groupTypeOf grp) ds grp
          | none => m) acc) ↔
      p ∈ planEntries cwd acc ∨ ∃ k ∈ ks, contribOf cwd fis k p := by
  induction ks generalizing acc with
  | nil => simp
  | cons k rest ih =>
    rw [List.foldl_cons]
    cases hds : groupDateString? (grpOf fis k) with
    | none =>
      simp only [hds]
      rw [ih]
      constructor
      · rintro (h | h)
        · exact Or.inl h
        · obtain ⟨k2, hk2, hc⟩ := h
          exact Or.inr ⟨k2, List.mem_cons_of_mem _ hk2, hc⟩
      · rintro (h | h)
        · exact Or.inl h
        · obtain ⟨k2, hk2, hc⟩ := h
          rcases List.mem_cons.mp hk2 with h1 | h1
          · subst h1
            obtain ⟨fi, _, ds, hds2, _⟩ := hc
            rw [hds] at hds2
            exact absurd hds2 (by simp)
          · exact Or.inr ⟨k2, h1, hc⟩
    | some ds =>
      simp only [hds]
      rw [ih, mem_planEntries_pushTD]
      constructor
      · rintro ((h | h) | h)
        · exact Or.inl h
        · obtain ⟨fi, hfi, hp⟩ := h
          exact Or.inr ⟨k, List.mem_cons_self _ _, fi, hfi, ds, hds, hp⟩
        · obtain ⟨k2, hk2, hc⟩ := h
          exact Or.inr ⟨k2, List.mem_cons_of_mem _ hk2, hc⟩
      · rintro (h | h)
        · exact Or.inl (Or.inl h)
        · obtain ⟨k2, hk2, hc⟩ := h
          rcases List.mem_cons.mp hk2 with h1 | h1
          · subst h1
            obtain ⟨fi, hfi, ds2, hds2, hp⟩ := hc
            rw [hds] at hds2
            injection hds2 with hds3
            subst hds3
            exact Or.inl (Or.inr ⟨fi, hfi, hp⟩)
          · exact Or.inr ⟨k2, h1, hc⟩

theorem mem_grpOf (fis : List FileInfo) (k : String) (fi : FileInfo) :
    fi ∈ grpOf fis k ↔ fi ∈ fis ∧ fi.name = k := by
  unfold grpOf
  rw [List.mem_filter]
  constructor
  · rintro ⟨h1, h2⟩
    exact ⟨h1, of_decide_eq_true h2⟩
  · rintro ⟨h1, h2⟩
    exact ⟨h1, decide_eq_true h2⟩

/-- The destination directory a group key's members are all sent to. -/
def groupDestDir (cwd : String) (fis : List FileInfo) (k : String) : String :=
  dateDir cwd (groupTypeOf (grpOf fis k)) ((groupDateString? (grpOf fis k)).getD "")

/-- Claim C3 (confirmed).  The plan contains a member exactly at the
destination determined by its group: the directory named by the group's
resolved type and resolved date — the same directory for every member of
one group — and the file name is the member's base name unchanged. -/
theorem c3_plan_atomic_per_group :
    ∀ (cwd : String) (fis : List FileInfo),
      (∀ (fi : FileInfo) (p : String),
        (fi, p) ∈ planEntries cwd (buildTD fis) ↔
          fi ∈ fis ∧ p = pathJoin (groupDestDir cwd fis fi.name) fi.basename) ∧
      (∀ fi1 fi2 p1 p2,
        (fi1, p1) ∈ planEntries cwd (buildTD fis) →
        (fi2, p2) ∈ planEntries cwd (buildTD fis) →
        fi1.name = fi2.name →
        ∃ dir, p1 = pathJoin dir fi1.basename ∧ p2 = pathJoin dir fi2.basename) := by
  intro cwd fis
  have hmain : ∀ (fi : FileInfo) (p : String),
      (fi, p) ∈ planEntries cwd (buildTD fis) ↔
        fi ∈ fis ∧ p = pathJoin (groupDestDir cwd fis fi.name) fi.basename := by
    intro fi p
    unfold buildTD
    rw [mem_planEntries_foldl, planEntries_nil]
    simp only [List.not_mem_nil, false_or]
    constructor
    · rintro ⟨k, hk, fi2, hfi2, ds, hds, hp⟩
      rw [Prod.mk.injEq] at hp
      obtain ⟨hfi, hpath⟩ := hp
      subst hfi
      obtain ⟨hmem, hname⟩ := (mem_grpOf fis k fi).mp hfi2
      subst hname
      refine ⟨hmem, ?_⟩
      rw [hpath]
      unfold groupDestDir
      rw [hds]
      rfl
    · rintro ⟨hmem, hp⟩
      refine ⟨fi.name, (mem_groupKeys fis fi.name).mpr ⟨fi, hmem, rfl⟩, ?_⟩
      have hgrp : fi ∈ grpOf fis fi.name :=
        (mem_grpOf fis fi.name fi).mpr ⟨hmem, rfl⟩
      obtain ⟨ds, hds⟩ :=
        groupDateString?_isSome (grpOf fis fi.name) (List.ne_nil_of_mem hgrp)
      refine ⟨fi, hgrp, ds, hds, ?_⟩
      rw [Prod.mk.injEq]
      refine ⟨rfl, ?_⟩
      rw [hp]
      unfold groupDestDir
      rw [hds]
      rfl
  refine ⟨hmain, ?_⟩
  intro fi1 fi2 p1 p2 h1 h2 hname
  have e1 := ((hmain fi1 p1).mp h1).2
  have e2 := ((hmain fi2 p2).mp h2).2
  refine ⟨groupDestDir cwd fis fi1.name, e1, ?_⟩
  rw [← hname] at e2
  exact e2

/-- Witness for C3 at a concrete two-group listing. -/
theorem c3_plan_atomic_witness :
    fiImage ∈ [fiImage, fiVideo] ∧
    (fiImage, pathJoin (groupDestDir "/cwd" [fiImage, fiVideo] fiImage.name)
      fiImage.basename) ∈ planEntries "/cwd" (buildTD [fiImage, fiVideo]) ∧
    pathJoin (groupDestDir "/cwd" [fiImage, fiVideo] fiImage.name)
      fiImage.basename = "/cwd/Image/2023-01-01/a.jpg" :=
  ⟨by decide,
    ((c3_plan_atomic_per_group "/cwd" [fiImage, fiVideo]).1 fiImage _).mpr
      ⟨by decide, rfl⟩,
    by decide⟩

end AvOrganizer
